import Mathlib

/-!
Verification development for the polygrammar engine.

The development embeds, as executable Lean definitions, the parts of the
source that the checked properties are about:

* `optimizer.py`: `to_range`, `add_groups`, `subtract_groups` and the
  rewriting function `f` inside `coalesce_charsets`;
* `model.py`: the `create` constructors (`Alt.create`, `Cat.create`,
  `Charset.create`) and the validation performed by the `Repeat` and
  `CharRange` constructors;
* `runtime.py`: `handle_problem` and the duplicate-rule handling inside
  `Runtime.build_rule_map`;
* `recursive_parser.py`: `State`, `ParseJob._parse_symbol` / `_parse_expr` /
  `_parse_alt` / `_parse_cat` / `_parse_repeat` / `_parse_string` /
  `_parse_charset` / `_parse_diff`, and `Parser.parse`.

Modelling conventions:

* Python text (an indexable sequence of Unicode code points) is `List Nat`;
  characters are their code points, so `Char(c)` / `CharRange(a, z)` carry
  `Nat` code points, and comparisons mirror Python single-character string
  comparison (code-point order).
* Python generators are embedded as functions producing the full list of
  yielded values, in yield order, inside `Except`: an exception raised while
  generating is `Except.error` for the whole enumeration.  Recursion through
  the rule map is made total with a `fuel` counter decremented at every step
  of the interpreter; running out of fuel is the distinguished error
  `PErr.fuelOut`.  Theorems quantify over `fuel` and are stated about
  enumerations that return `Except.ok`.
* The metadata side channel `__meta__` is abstracted to the list of tag names
  attached to a node (`meta : List String`); structural pattern matching in
  the source ignores metadata, and so do the embedded `match` arms.
* The diagnostic bookkeeping of `ParseJob` (`_max_offset`, `_debug_offset`,
  `_debug_stacks`) only affects error messages, never the enumerated
  solutions, and is not modelled; the two no-match raises of `Parser.parse`
  (a `ParseError` when `debug=False`, an `ExceptionGroup` otherwise) are both
  modelled as the single error `TopErr.noMatch`.
-/

/-! ### Charset groups (model.py `Char` / `CharRange`, as code points) -/

/-- A member of `Charset.groups`: `Char(c)` or `CharRange(start, end)` with
inclusive endpoints, both as Unicode code points. -/
inductive CsGroup where
  | char (c : Nat)
  | range (lo hi : Nat)
deriving DecidableEq, Repr

/-- Validity enforced by the source constructors: a `Char` is always valid, a
`CharRange` requires `start < end` (`CharRange.__attrs_post_init__`). -/
def CsGroup.valid : CsGroup → Prop
  | .char _ => True
  | .range lo hi => lo < hi

instance : DecidablePred CsGroup.valid := by
  intro g
  cases g <;> simp [CsGroup.valid] <;> infer_instance

/-- Membership of a code point in one group (`_parse_charset`: `ch == c` for a
`Char`, `start.char <= ch <= end.char` for a `CharRange`). -/
def CsGroup.mem (x : Nat) : CsGroup → Prop
  | .char c => x = c
  | .range lo hi => lo ≤ x ∧ x ≤ hi

instance (x : Nat) : DecidablePred (CsGroup.mem x) := by
  intro g
  cases g <;> simp [CsGroup.mem] <;> infer_instance

/-- Membership of a code point in a list of groups. -/
def groupsMem (x : Nat) (gs : List CsGroup) : Prop :=
  ∃ g ∈ gs, CsGroup.mem x g

instance (x : Nat) (gs : List CsGroup) : Decidable (groupsMem x gs) :=
  List.decidableBEx _ gs

/-! ### Interval subtraction (optimizer.py lines 7-71) -/

/-- optimizer.py `to_range`: a group as a half-open code-point interval. -/
def to_range : CsGroup → Nat × Nat
  | .char c => (c, c + 1)
  | .range lo hi => (lo, hi + 1)

/-- Membership of a code point in a half-open interval `[a, z)`. -/
def rangeMem (x : Nat) (p : Nat × Nat) : Prop :=
  p.1 ≤ x ∧ x < p.2

instance (x : Nat) (p : Nat × Nat) : Decidable (rangeMem x p) := by
  unfold rangeMem; infer_instance

/-- Membership of a code point in a list of half-open intervals. -/
def rangesMem (x : Nat) (l : List (Nat × Nat)) : Prop :=
  ∃ p ∈ l, rangeMem x p

instance (x : Nat) (l : List (Nat × Nat)) : Decidable (rangesMem x l) :=
  List.decidableBEx _ l

/-- Python tuple comparison, as used by `sorted` on `(a, z)` pairs. -/
def rangeLe (p q : Nat × Nat) : Prop :=
  p.1 < q.1 ∨ (p.1 = q.1 ∧ p.2 ≤ q.2)

instance : DecidableRel rangeLe := by
  intro p q
  unfold rangeLe; infer_instance

instance : IsTotal (Nat × Nat) rangeLe := by
  constructor
  intro p q
  unfold rangeLe
  omega

instance : IsTrans (Nat × Nat) rangeLe := by
  constructor
  intro p q r
  unfold rangeLe
  omega

/-- Python `sorted` on `(a, z)` tuples (a stable sort for a total,
antisymmetric order: the result is the unique sorted rearrangement). -/
def sortRanges (l : List (Nat × Nat)) : List (Nat × Nat) :=
  List.insertionSort rangeLe l

/-- Width of the first interval of the worklist; part of the termination
measure of the subtraction loop. -/
def headWidth : List (Nat × Nat) → Nat
  | [] => 0
  | (a, z) :: _ => z - a

/-- optimizer.py `subtract_groups`, lines 26-63: the `while i ... j ...` loop.
The mutable list with cursor `i` is split into the emitted prefix
`base_ranges[:i]` (the data already produced) and the tail
`base_ranges[i:]` (the first argument); `j` similarly points at the head of
the second argument.  In-place updates of `base_ranges[i]` become head
replacements, `base_ranges[i:i+1] = [r1, r2]` becomes emitting `r1` and
replacing the head by `r2`, and loop exit returns the remaining base tail
unchanged (lines 65-66 iterate over what is left of `base_ranges`). -/
def subtractLoop : List (Nat × Nat) → List (Nat × Nat) → List (Nat × Nat)
  | [], _ => []
  | bs, [] => bs
  | (a1, z1) :: bs, (a2, z2) :: ds =>
    if _h1 : z1 ≤ a2 then
      -- no overlap, keep base range (i += 1)
      (a1, z1) :: subtractLoop bs ((a2, z2) :: ds)
    else if _h2 : z2 ≤ a1 then
      -- no overlap, skip diff range (j += 1)
      subtractLoop ((a1, z1) :: bs) ds
    else if _h3 : a1 < a2 ∧ z1 ≤ z2 then
      -- overlap, keep left part of base range
      (a1, a2) :: subtractLoop bs ((a2, z2) :: ds)
    else if _h4 : a2 ≤ a1 ∧ z2 < z1 then
      -- overlap, keep right part of base range
      subtractLoop ((z2, z1) :: bs) ds
    else if _h5 : a1 < a2 ∧ z2 < z1 then
      -- overlap, splitting base range in two
      (a1, a2) :: subtractLoop ((z2, z1) :: bs) ((a2, z2) :: ds)
    else
      -- overlap, remove base range
      subtractLoop bs ((a2, z2) :: ds)
termination_by bs ds => (bs.length + ds.length, headWidth bs)
decreasing_by
  all_goals simp [headWidth]
  all_goals omega

/-- optimizer.py lines 65-71: the residual intervals are enumerated as `Char`
for width 1 and as an inclusive `CharRange` otherwise. -/
def rangesToGroups (l : List (Nat × Nat)) : List CsGroup :=
  l.map fun p => if p.1 + 1 = p.2 then .char p.1 else .range p.1 (p.2 - 1)

/-- optimizer.py `subtract_groups` (lines 22-71). -/
def subtract_groups (base diff : List CsGroup) : List CsGroup :=
  let base_ranges := sortRanges (base.map to_range)
  let diff_ranges := sortRanges (diff.map to_range)
  rangesToGroups (subtractLoop base_ranges diff_ranges)

/-- optimizer.py `add_groups` (lines 17-19): plain concatenation, overlaps are
not removed. -/
def add_groups (g1 g2 : List CsGroup) : List CsGroup :=
  g1 ++ g2

/-- Syntactic non-overlap of two groups, stated on their half-open intervals.
For valid groups this is equivalent to having no common code point. -/
def groupsDisjoint (g h : CsGroup) : Prop :=
  (to_range g).2 ≤ (to_range h).1 ∨ (to_range h).2 ≤ (to_range g).1

instance : DecidableRel groupsDisjoint := by
  intro g h
  unfold groupsDisjoint; infer_instance

/-! ### The expression IR (model.py) -/

/-- model.py `Expr` variants present in this revision of `model.py`:
`String`, `Symbol`, `Charset`, `Alt`, `Cat`, `Repeat` (with its
`Optional` / `ZeroOrMore` / `OneOrMore` specializations, which only fix
`min` / `max`), `Diff` (with its `CharsetDiff` narrowing, which only
restricts the operand types), and `EndOfFile`.  Each node carries the
`__meta__` side channel, abstracted to a list of tag names; `__meta__` is
excluded from structural equality in the source, but no embedded operation
compares whole nodes for equality, so carrying it in the constructor is
harmless and lets theorems talk about tags. -/
inductive Expr where
  | string (value : List Nat) (meta : List String)
  | symbol (name : String) (meta : List String)
  | charset (groups : List CsGroup) (meta : List String)
  | alt (exprs : List Expr) (meta : List String)
  | cat (exprs : List Expr) (meta : List String)
  | rep (expr : Expr) (min : Nat) (max : Option Nat) (meta : List String)
  | diff (base d : Expr) (meta : List String)
  | endOfFile (meta : List String)

/-- Tag lookup on the metadata channel (`Expr.has_meta`). -/
def Expr.hasTag (t : String) : Expr → Bool
  | .string _ m | .symbol _ m | .charset _ m | .alt _ m | .cat _ m
  | .rep _ _ _ m | .diff _ _ m | .endOfFile m => m.contains t

/-- model.py `Alt.create`, lines 100-115: directly nested `Alt` children are
spliced in (one level), a singleton collapses to its sole element, and the
created node carries fresh (empty) metadata.  The source raises on an empty
argument list (`min_len(2)` after the singleton check); the embedding returns
an empty `Alt` there, which no embedded caller produces. -/
def Alt.create (es : List Expr) : Expr :=
  let flat := es.flatMap fun e =>
    match e with
    | .alt inner _ => inner
    | e => [e]
  match flat with
  | [e] => e
  | es2 => .alt es2 []

/-- model.py `Cat.create`, lines 129-144: same shape as `Alt.create` with
`Cat` in place of `Alt`. -/
def Cat.create (es : List Expr) : Expr :=
  let flat := es.flatMap fun e =>
    match e with
    | .cat inner _ => inner
    | e => [e]
  match flat with
  | [e] => e
  | es2 => .cat es2 []

/-- model.py `Charset.create`: a `Charset` with fresh metadata (the
string-to-`Char` coercion does not arise here since groups are already
groups). -/
def Charset.create (gs : List CsGroup) : Expr :=
  .charset gs []

/-- model.py `Repeat` construction checks (lines 147-157): `min` must be an
int `≥ 0`, `max` must be `None` or an int `≥ 0` (attrs validators), and
`__attrs_post_init__` rejects a bounded `max` with `min > max`.  Arguments
are integers, as in Python. -/
def repeatCtorOk (min : Int) (max : Option Int) : Prop :=
  0 ≤ min ∧ (match max with
    | none => True
    | some m => 0 ≤ m ∧ min ≤ m)

instance (min : Int) (max : Option Int) : Decidable (repeatCtorOk min max) := by
  unfold repeatCtorOk
  cases max <;> simp <;> infer_instance

/-- The construction-success condition exactly as the specification states
it: `min ≥ 0` and `max` unbounded, or `max ≥ 1` and `min ≤ max`.  Written
from the spec for comparison with `repeatCtorOk`, which is written from the
source. -/
def repeatSpecOk (min : Int) (max : Option Int) : Prop :=
  0 ≤ min ∧ (match max with
    | none => True
    | some m => 1 ≤ m ∧ min ≤ m)

instance (min : Int) (max : Option Int) : Decidable (repeatSpecOk min max) := by
  unfold repeatSpecOk
  cases max <;> simp <;> infer_instance

/-! ### Charset coalescing (optimizer.py `coalesce_charsets`, lines 148-171) -/

mutual
/-- optimizer.py lines 149-169: the rewriting function `f` inside
`coalesce_charsets`.  On an `Alt`, the first child is kept as is
(`new_exprs = [exprs[0]]`) and every later child is rewritten and then merged
into the last accumulated child when both are `Charset`s; the pattern match
`case Charset(g1), Charset(g2)` is purely structural, so metadata plays no
role, and the merged node is built by `Charset.create(*add_groups(g1, g2))`
with fresh metadata.  On a `Diff` of two `Charset`s the node becomes
`Charset.create(*subtract_groups(g1, g2))`; any other `Diff` is rebuilt as
`Diff(base, diff)` (fresh metadata).  Everything else is returned
unchanged.  An `Alt` with no children cannot occur (`min_len(2)`); the
embedding returns it unchanged. -/
def coalesceF : Expr → Expr
  | .alt [] m => .alt [] m
  | .alt (e0 :: rest) _ => Alt.create (coalesceAccum [e0] rest)
  | .diff b d _m =>
    match b, d with
    | .charset g1 _, .charset g2 _ => Charset.create (subtract_groups g1 g2)
    | b, d => .diff b d []
  | e => e

/-- The `for expr in exprs[1:]` loop of optimizer.py lines 153-160, with the
`new_exprs` accumulator kept in order. -/
def coalesceAccum : List Expr → List Expr → List Expr
  | acc, [] => acc
  | acc, e :: rest =>
    match acc.getLast?, coalesceF e with
    | some (.charset g1 _), .charset g2 _ =>
      coalesceAccum (acc.dropLast ++ [Charset.create (add_groups g1 g2)]) rest
    | _, e' => coalesceAccum (acc ++ [e']) rest
end

/-! ### Rule-map building (runtime.py lines 31-37 and 118-159) -/

/-- runtime.py `DUPLICATE_OPTIONS`: the five accepted values of
`on_duplicate_rule` (`build_rule_map` rejects anything else up front, which
the embedding captures by making the policy an enumeration). -/
inductive DupPolicy where
  | error | warn | ignore | overrides | overloads
deriving DecidableEq, Repr

/-- runtime.py `handle_problem` (lines 31-37): `warn` emits a warning and
continues, `error` raises `ValueError`, `ignore` is silent, and any other
option trips the `assert`.  Emitted warnings are returned in the `ok` value
so the three non-raising behaviours stay distinguishable. -/
def handle_problem (msg : String) (option : DupPolicy) : Except String (List String) :=
  match option with
  | .warn => .ok [msg]
  | .error => .error msg
  | .ignore => .ok []
  | _ => .error ("AssertionError: option not supported")

/-- model.py `Rule`: name, right-hand side and the two duplicate-merging
flags. -/
structure RRule where
  name : String
  expr : Expr
  is_additional_cat : Bool := false
  is_additional_alt : Bool := false

/-- Lookup in an insertion-ordered rule map (Python `dict` membership). -/
def alistLookup : List (String × Expr) → String → Option Expr
  | [], _ => none
  | (k, v) :: rest, n => if k = n then some v else alistLookup rest n

/-- Python `dict` assignment `rule_map[name] = expr`: replaces in place if
the key exists (keeping its position), appends otherwise. -/
def alistUpsert : List (String × Expr) → String → Expr → List (String × Expr)
  | [], n, e => [(n, e)]
  | (k, v) :: rest, n, e =>
    if k = n then (k, e) :: rest else (k, v) :: alistUpsert rest n e

/-- runtime.py lines 134-145: the body of the `for rule in grammar.rules`
loop of `build_rule_map` (the `Directive` expansion of lines 131-132 is not
embedded: this revision of model.py defines no `Directive`, and no claim
involves directives).  The accumulator pairs the rule map built so far with
the `duplicate_rules` list. -/
def buildStep (policy : DupPolicy) (acc : List (String × Expr) × List String)
    (r : RRule) : List (String × Expr) × List String :=
  let (rule_map, duplicate_rules) := acc
  match alistLookup rule_map r.name with
  | none => (alistUpsert rule_map r.name r.expr, duplicate_rules)
  | some prev =>
    if policy = .overrides then
      (alistUpsert rule_map r.name r.expr, duplicate_rules)
    else if r.is_additional_alt || policy = .overloads then
      (alistUpsert rule_map r.name (Alt.create [prev, r.expr]), duplicate_rules)
    else if r.is_additional_cat then
      (alistUpsert rule_map r.name (Cat.create [prev, r.expr]), duplicate_rules)
    else
      (rule_map, duplicate_rules ++ [r.name])

mutual
/-- model.py / transforms.py `symbols`: the set of symbol names reachable in
an expression, collected in traversal order. -/
def symbolsOf : Expr → List String
  | .symbol n _ => [n]
  | .string _ _ => []
  | .charset _ _ => []
  | .endOfFile _ => []
  | .alt es _ => symbolsList es
  | .cat es _ => symbolsList es
  | .rep e _ _ _ => symbolsOf e
  | .diff b d _ => symbolsOf b ++ symbolsOf d

/-- Symbol collection over a child list. -/
def symbolsList : List Expr → List String
  | [] => []
  | e :: es => symbolsOf e ++ symbolsList es
end

/-- runtime.py `Runtime.build_rule_map` (lines 118-159, `Directive`
expansion omitted as in `buildStep`): fold the rules through `buildStep`,
report collected duplicates through `handle_problem`, then fail on symbols
that name no rule.  Returns the rule map together with the warnings emitted
by `handle_problem`. -/
def build_rule_map (grammar : List RRule) (on_duplicate_rule : DupPolicy) :
    Except String (List (String × Expr) × List String) := do
  let (rule_map, duplicate_rules) := grammar.foldl (buildStep on_duplicate_rule) ([], [])
  let warnings ← if duplicate_rules.isEmpty then pure [] else
    handle_problem ("Duplicate rule(s)") on_duplicate_rule
  let seen := rule_map.foldl (fun acc p => acc ++ symbolsOf p.2) []
  let missing := seen.filter fun s => (alistLookup rule_map s).isNone
  if missing.isEmpty then
    pure (rule_map, warnings)
  else
    .error ("Undefined rule(s)")

/-! ### Parse results and state (recursive_parser.py) -/

/-- A parse-result value: either a string (literal / charset character /
joined token text) or the generic visitor's `(name, *args)` tuple
(`Visitor.visit`, model.py lines 377-379). -/
inductive Val where
  | str (s : List Nat)
  | node (name : String) (args : List Val)

/-- recursive_parser.py `State` (lines 115-118): current offset plus the
results accumulated for the active rule / token scope. -/
structure State where
  offset : Nat
  results : List Val

/-- Exceptions the parse functions can raise, plus the fuel sentinel of the
embedding: `notImplemented` is the `NotImplementedError` of the `_parse_expr`
dispatch, `keyError` is a failed `self.parser._rule_map[name]` lookup,
`typeError` is `"".join(args)` applied to a non-string result. -/
inductive PErr where
  | fuelOut
  | notImplemented (name : String)
  | keyError (name : String)
  | typeError
deriving DecidableEq, Repr

/-- Errors observable from `Parser.parse`: an exception escaping the parse
functions, or the no-match diagnostic raised after an empty enumeration
(`ParseError` when `debug=False`, the debug-rerun `ExceptionGroup`
otherwise; both carry no solutions and are modelled as `noMatch`). -/
inductive TopErr where
  | inner (e : PErr)
  | noMatch
deriving DecidableEq, Repr

/-- The executable rule map (`Runtime.rule_map` / `Parser._rule_map`),
insertion-ordered. -/
abbrev RuleMap := List (String × Expr)

/-- The visitor method map (`Parser._method_map`): a rule name to the bound
`visit_<name>` callable, if any.  A callable takes the accumulated child
results; for a token rule the source calls it on the joined string, which the
embedding passes as a singleton argument list. -/
abbrev MethodMap := String → Option (List Val → Val)

/-- Sequence the effect of a Python `for x in xs: yield y(x)` loop that
yields exactly one value per element: stop at the first exception. -/
def exceptMapM {ε α β : Type} (f : α → Except ε β) : List α → Except ε (List β)
  | [] => .ok []
  | x :: xs => do
    let y ← f x
    let ys ← exceptMapM f xs
    pure (y :: ys)

/-- Sequence the effect of a Python `for x in xs: yield from g(x)` loop:
concatenate the yields in order, stop at the first exception. -/
def exceptConcatMap {ε α β : Type} (f : α → Except ε (List β)) : List α → Except ε (List β)
  | [] => .ok []
  | x :: xs => do
    let ys ← f x
    let rest ← exceptConcatMap f xs
    pure (ys ++ rest)

/-- Python `"".join(args)` on the accumulated results (recursive_parser.py
line 167): concatenates string results, raises `TypeError` on a tuple. -/
def joinVals : List Val → Except PErr (List Nat)
  | [] => .ok []
  | .str s :: rest => do
    let tail ← joinVals rest
    pure (s ++ tail)
  | .node _ _ :: _ => .error .typeError

/-- recursive_parser.py `_parse_string` (lines 223-234): compare
`text[start:end]` with the value; on a match yield one continuation at the
new offset, appending the value to the results unless the scope is ignored
(the `_debug` call on mismatch only records diagnostics). -/
def parseString (text : List Nat) (st : State) (value : List Nat) (ign : Bool) :
    List State :=
  let start := st.offset
  let stop := start + value.length
  if (text.drop start).take value.length = value then
    [⟨stop, if ign then st.results else st.results ++ [Val.str value]⟩]
  else
    []

/-- recursive_parser.py `_parse_charset` (lines 236-266): at end of input
yield nothing; otherwise test the next character against each group (`Char`
equality or inclusive `CharRange` bounds; the `case _` arm raising
`NotImplementedError` cannot fire, `CsGroup` being closed), and on a match
yield one continuation advanced by one, appending the character unless
ignored. -/
def parseCharset (text : List Nat) (st : State) (groups : List CsGroup) (ign : Bool) :
    List State :=
  if st.offset < text.length then
    let ch := text.getD st.offset 0
    if groups.any (fun g => decide (CsGroup.mem ch g)) then
      [⟨st.offset + 1, if ign then st.results else st.results ++ [Val.str [ch]]⟩]
    else
      []
  else
    []

/-- The `dec` helper of `_parse_repeat` (lines 210-215) on the non-negative
counters: `None → None` (via `Option.map`), `0 → 0`, `x → x - 1`; `Nat`
subtraction matches the `x == 0` guard. -/
def decCounter (x : Nat) : Nat := x - 1

/-- The guard `max is None or max > 0` of `_parse_repeat` line 217. -/
def repCond : Option Nat → Bool
  | none => true
  | some m => decide (0 < m)

/-- The result computation of `_parse_symbol` (lines 165-173): in token
scope, join the child results into one string and pass it through the
`visit_<name>` method if bound; otherwise call the bound method on the child
results, or fall back to the generic `Visitor.visit` tuple. -/
def symbolResult (mm : MethodMap) (name : String) (is_token : Bool)
    (args : List Val) : Except PErr Val :=
  if is_token then do
    let joined ← joinVals args
    pure (match mm name with
      | some f => f [Val.str joined]
      | none => Val.str joined)
  else
    pure (match mm name with
      | some f => f args
      | none => Val.node name args)

/-- One pending call of the mutually recursive `_parse_*` generator methods
of `ParseJob`; the interpreter `run` below dispatches on it.  Splitting the
methods into call descriptors lets the whole interpreter be one structurally
recursive function on `fuel`, which keeps it computable by the kernel. -/
inductive PCall where
  | pExpr (st : State) (e : Expr) (is_ignored is_token : Bool)
  | pSymbol (st : State) (name : String) (is_ignored is_token : Bool)
  | pAlt (st : State) (es : List Expr) (is_ignored is_token : Bool)
  | pCat (st : State) (es : List Expr) (is_ignored is_token : Bool)
  | pRepeat (st : State) (e : Expr) (min : Nat) (max : Option Nat) (is_ignored is_token : Bool)
  | pDiff (st : State) (base d : Expr) (is_ignored is_token : Bool)

section ParseJob

variable (rm : RuleMap) (mm : MethodMap) (text : List Nat)

/-- The `ParseJob` parse methods (recursive_parser.py lines 155-276), as one
interpreter over `PCall`.  Each arm is the direct translation of one method;
the keyword arguments `is_ignored` / `is_token` (with their per-method
defaults) are explicit `Bool` parameters of every call.  `fuel` decreases at
every step; a genuine Python run corresponds to any sufficiently large fuel,
and a grammar that recurses without consuming input (which the source loops
on forever) exhausts any fuel with `PErr.fuelOut`.

* `pExpr` is `_parse_expr` (lines 177-195): dispatch on the expression
  variant; `EndOfFile` has no arm in the source match and falls into the
  `case _` raise of `NotImplementedError` (the `_max_offset` update on entry
  is diagnostic only and not modelled).
* `pSymbol` is `_parse_symbol` (lines 155-175): rule lookup (a missing name
  raises `KeyError`); an ignored scope or a leading-underscore name parses
  the body at the same state with `is_ignored=True` (and the token flag left
  at its default); otherwise the body runs on a fresh result list with
  `is_token=is_token or name[0].isupper()` (Lean's `Char.isUpper` standing
  in for `str.isupper`, identical on ASCII names), and every body solution
  yields one continuation appending the collapsed result to the caller's
  results.
* `pAlt` is `_parse_alt` (lines 197-199), `pCat` is `_parse_cat`
  (lines 201-207), `pRepeat` is `_parse_repeat` (lines 209-221), and
  `pDiff` is `_parse_diff` (lines 268-276), where `next(...)` on the diff
  enumeration at the original state decides, identically for every base
  solution, whether the base solutions are kept (the diff enumeration is
  consulted only when at least one base solution exists). -/
def run : Nat → PCall → Except PErr (List State)
  | 0, _ => .error .fuelOut
  | fuel + 1, c =>
    match c with
    | .pExpr st e ign tok =>
      match e with
      | .alt es _ => run fuel (.pAlt st es ign tok)
      | .cat es _ => run fuel (.pCat st es ign tok)
      | .string v _ => .ok (parseString text st v ign)
      | .symbol n _ => run fuel (.pSymbol st n ign tok)
      | .rep e' mn mx _ => run fuel (.pRepeat st e' mn mx ign tok)
      | .charset gs _ => .ok (parseCharset text st gs ign)
      | .diff b d _ => run fuel (.pDiff st b d ign tok)
      | .endOfFile _ => .error (.notImplemented ("EndOfFile"))
    | .pSymbol st n ign tok =>
      match alistLookup rm n with
      | none => .error (.keyError n)
      | some expr =>
        if ign || n.front == '_' then
          run fuel (.pExpr st expr true false)
        else
          let tok' := tok || n.front.isUpper
          do
            let sts ← run fuel (.pExpr ⟨st.offset, []⟩ expr false tok')
            exceptMapM (fun st' => do
              let result ← symbolResult mm n tok' st'.results
              pure (State.mk st'.offset (st.results ++ [result]))) sts
    | .pAlt st es ign tok =>
      exceptConcatMap (fun e => run fuel (.pExpr st e ign tok)) es
    | .pCat st es ign tok =>
      match es with
      | [] => .ok [st]
      | e :: rest => do
        let sts ← run fuel (.pExpr st e ign tok)
        exceptConcatMap (fun st' => run fuel (.pCat st' rest ign tok)) sts
    | .pRepeat st e mn mx ign tok => do
      let part1 ←
        if repCond mx then do
          let sts ← run fuel (.pExpr st e ign tok)
          exceptConcatMap
            (fun st' => run fuel (.pRepeat st' e (decCounter mn) (mx.map decCounter) ign tok))
            sts
        else
          pure []
      pure (part1 ++ if mn = 0 then [st] else [])
    | .pDiff st b d ign tok => do
      let bsols ← run fuel (.pExpr st b ign tok)
      match bsols with
      | [] => pure []
      | _ => do
        let dsols ← run fuel (.pExpr st d ign tok)
        pure (if dsols.isEmpty then bsols else [])
termination_by structural fuel => fuel

/-- Entry point `_parse_expr` (dispatch over an expression). -/
def parseExpr (fuel : Nat) (st : State) (e : Expr) (ign tok : Bool) :
    Except PErr (List State) :=
  run rm mm text fuel (.pExpr st e ign tok)

/-- Entry point `_parse_symbol` (parse a named rule). -/
def parseSymbol (fuel : Nat) (st : State) (name : String) (ign tok : Bool) :
    Except PErr (List State) :=
  run rm mm text fuel (.pSymbol st name ign tok)

/-- Entry point `_parse_alt`. -/
def parseAlt (fuel : Nat) (st : State) (es : List Expr) (ign tok : Bool) :
    Except PErr (List State) :=
  run rm mm text fuel (.pAlt st es ign tok)

/-- recursive_parser.py `Parser.parse` (lines 74-93) together with
`ParseJob.parse` (lines 131-137): run `_parse_symbol` on `State(offset)`
for the requested start rule, yield `(state.results, state.offset)` per
solution, and — when the enumeration produced no solution — raise the
no-match diagnostic (for `debug=False` a bare `ParseError`, otherwise the
debug rerun's `ExceptionGroup`; both are `TopErr.noMatch` here).  An
exception escaping the parse functions propagates unchanged. -/
def parserParse (fuel : Nat) (start : String) (offset : Nat) :
    Except TopErr (List (List Val × Nat)) :=
  match run rm mm text fuel (.pSymbol ⟨offset, []⟩ start false false) with
  | .error e => .error (.inner e)
  | .ok sols =>
    if sols.length > 0 then
      .ok (sols.map fun s => (s.results, s.offset))
    else
      .error .noMatch

/-- recursive_parser.py `Parser.first_parse` (lines 108-109): the first
element of the `parse` enumeration; with no solutions, `next` runs the
generator into its no-match raise. -/
def firstParse (fuel : Nat) (start : String) (offset : Nat) :
    Except TopErr (List Val × Nat) :=
  match parserParse rm mm text fuel start offset with
  | .error e => .error e
  | .ok [] => .error .noMatch
  | .ok (x :: _) => .ok x

end ParseJob

/-- The state argument of a pending call (every `_parse_*` method receives
the current `State` first). -/
def PCall.state : PCall → State
  | .pExpr st _ _ _ => st
  | .pSymbol st _ _ _ => st
  | .pAlt st _ _ _ => st
  | .pCat st _ _ _ => st
  | .pRepeat st _ _ _ _ _ => st
  | .pDiff st _ _ _ _ => st

/-- The `is_ignored` keyword argument of a pending call. -/
def PCall.ign : PCall → Bool
  | .pExpr _ _ ign _ => ign
  | .pSymbol _ _ ign _ => ign
  | .pAlt _ _ ign _ => ign
  | .pCat _ _ ign _ => ign
  | .pRepeat _ _ _ _ ign _ => ign
  | .pDiff _ _ _ ign _ => ign

/-! ### Basic lemmas about the `Except` loop combinators -/

theorem except_bind_ok {ε α β : Type} {x : Except ε α} {f : α → Except ε β} {b : β} :
    (x >>= f) = .ok b ↔ ∃ a, x = .ok a ∧ f a = .ok b := by
  cases x <;> simp [Bind.bind, Except.bind]

theorem exceptMapM_ok_mem {ε α β : Type} {f : α → Except ε β} {l : List α}
    {out : List β} (h : exceptMapM f l = .ok out) :
    ∀ y ∈ out, ∃ x ∈ l, f x = .ok y := by
  induction l generalizing out with
  | nil =>
    simp [exceptMapM] at h
    subst h
    simp
  | cons x xs ih =>
    simp only [exceptMapM, except_bind_ok] at h
    obtain ⟨y, hy, a, ha, hout⟩ := h
    simp only [pure, Except.pure, Except.ok.injEq] at hout
    subst hout
    intro z hz
    rcases List.mem_cons.mp hz with hz | hz
    · exact ⟨x, List.mem_cons_self .., hz ▸ hy⟩
    · obtain ⟨x', hx', hfx'⟩ := ih ha z hz
      exact ⟨x', List.mem_cons_of_mem _ hx', hfx'⟩

theorem exceptConcatMap_ok_mem {ε α β : Type} {f : α → Except ε (List β)} {l : List α}
    {out : List β} (h : exceptConcatMap f l = .ok out) :
    ∀ y ∈ out, ∃ x ∈ l, ∃ ys, f x = .ok ys ∧ y ∈ ys := by
  induction l generalizing out with
  | nil =>
    simp [exceptConcatMap] at h
    subst h
    simp
  | cons x xs ih =>
    simp only [exceptConcatMap, except_bind_ok] at h
    obtain ⟨ys, hys, rest, hrest, hout⟩ := h
    simp only [pure, Except.pure, Except.ok.injEq] at hout
    subst hout
    intro z hz
    rcases List.mem_append.mp hz with hz | hz
    · exact ⟨x, List.mem_cons_self .., ys, hys, hz⟩
    · obtain ⟨x', hx', ys', hys', hz'⟩ := ih hrest z hz
      exact ⟨x', List.mem_cons_of_mem _ hx', ys', hys', hz'⟩

/-! ### Claim C8: Repeat construction bounds -/

/-- C8, counterexample: `Repeat(expr, min=0, max=0)` is accepted by the
source constructor (`ge(0)` validators and the `min > max` post-init check
all pass), while the claimed success condition demands `max ≥ 1` for a
bounded `max` and therefore rejects it.  So construction success is not
equivalent to the claimed condition. -/
theorem c8_repeat_counterexample :
    repeatCtorOk 0 (some 0) ∧ ¬ repeatSpecOk 0 (some 0) := by
  constructor
  · simp [repeatCtorOk]
  · simp [repeatSpecOk]

/-- C8, amended: constructing `Repeat(expr, min, max)` succeeds exactly when
`min ≥ 0` and either `max` is unbounded or both `max ≥ 0` and `min ≤ max`
(the source allows the degenerate bounded bound `max = 0`); in particular a
bounded `max` with `min > max` is rejected. -/
theorem c8_repeat_ctor_characterization :
    (∀ (min : Int) (max : Option Int),
      repeatCtorOk min max ↔
        (0 ≤ min ∧ (max = none ∨ ∃ m, max = some m ∧ 0 ≤ m ∧ min ≤ m))) ∧
    (∀ (min m : Int), m < min → ¬ repeatCtorOk min (some m)) := by
  constructor
  · intro min max
    cases max <;> simp [repeatCtorOk]
  · intro min m hlt
    simp [repeatCtorOk]
    omega

/-! ### Claim C7: EndOfFile dispatch -/

/-- C7: the `_parse_expr` dispatch has no arm for `EndOfFile`, so parsing an
`EndOfFile` expression raises `NotImplementedError` at every offset — it
never succeeds, not even at `offset == len(text)` as the specification
requires.  (Any positive fuel reaches the dispatch; fuel 0 is the embedding's
out-of-fuel sentinel.) -/
theorem c7_end_of_file_raises (rm : RuleMap) (mm : MethodMap) (text : List Nat)
    (fuel : Nat) (st : State) (m : List String) (ign tok : Bool) :
    parseExpr rm mm text (fuel + 1) st (.endOfFile m) ign tok =
      .error (.notImplemented ("EndOfFile")) := rfl

/-! ### Claim C3: Diff semantics -/

/-- C3: `_parse_diff` keeps exactly the `base` solutions, in `base`'s
enumeration order, and keeps them exactly when `diff` has no solution at the
original state — the diff enumeration runs from `state` (the closure
variable holding the original state with its original offset), never from a
base solution's end state.  Stated over the enumerations of the two
children: a `Diff` node at fuel `fuel + 2` dispatches once and evaluates
both children at fuel `fuel`. -/
theorem c3_diff_solutions (rm : RuleMap) (mm : MethodMap) (text : List Nat)
    (fuel : Nat) (st : State) (b d : Expr) (m : List String) (ign tok : Bool)
    (bsols dsols : List State)
    (hb : parseExpr rm mm text fuel st b ign tok = .ok bsols)
    (hd : parseExpr rm mm text fuel st d ign tok = .ok dsols) :
    parseExpr rm mm text (fuel + 2) st (.diff b d m) ign tok =
      .ok (if dsols.isEmpty then bsols else []) := by
  unfold parseExpr at *
  show run rm mm text (fuel + 1) (.pDiff st b d ign tok) = _
  simp only [run, hb, hd, Bind.bind, Except.bind]
  cases bsols with
  | nil => cases dsols <;> simp [pure, Except.pure]
  | cons s rest => cases dsols <;> simp [pure, Except.pure]

/-- C3, witness: a concrete text where the base matches and the diff does
not, so the diff keeps the base solution. -/
theorem c3_diff_solutions_witness :
    parseExpr [] (fun _ => none) [97] 1 ⟨0, []⟩ (.string [97] []) false false =
      .ok [⟨1, [.str [97]]⟩] ∧
    parseExpr [] (fun _ => none) [97] 1 ⟨0, []⟩ (.string [98] []) false false =
      .ok [] ∧
    parseExpr [] (fun _ => none) [97] 3 ⟨0, []⟩
        (.diff (.string [97] []) (.string [98] []) []) false false =
      .ok [⟨1, [.str [97]]⟩] :=
  ⟨rfl, rfl,
    c3_diff_solutions [] (fun _ => none) [97] 1 ⟨0, []⟩ (.string [97] [])
      (.string [98] []) [] false false [⟨1, [.str [97]]⟩] [] rfl rfl⟩

/-! ### Claim C4: no-match behaviour of bulk enumeration -/

/-- C4, counterexample: grammar `s = "A"`, input `"B"` (code points 65 / 66).
Fully enumerating `Parser.parse` raises the no-match diagnostic itself —
lines 80-93 of recursive_parser.py raise after the generator yielded
nothing — rather than returning the empty sequence of solutions the claim
promises for bulk enumeration. -/
theorem c4_parse_counterexample :
    parserParse [(("s"), Expr.string [65] [])] (fun _ => none) [66] 2 ("s") 0 =
      .error .noMatch := rfl

/-- C4, amended: each failed alternative still contributes zero solutions
and aborts nothing, but when the whole enumeration is empty `Parser.parse`
itself raises the no-match diagnostic (`ParseError` for `debug=False`, the
debug-rerun `ExceptionGroup` otherwise) at the end of bulk enumeration —
`first_parse` merely surfaces the same raise through `next` —, and when at
least one solution exists `parse` yields every `(results, offset)` pair
without error. -/
theorem c4_parse_error_behaviour :
    (∀ (rm : RuleMap) (mm : MethodMap) (text : List Nat) (fuel : Nat)
        (start : String) (offset : Nat) (sols : List State),
      run rm mm text fuel (.pSymbol ⟨offset, []⟩ start false false) = .ok sols →
        (sols = [] → parserParse rm mm text fuel start offset = .error .noMatch) ∧
        (sols ≠ [] →
          parserParse rm mm text fuel start offset =
            .ok (sols.map fun s => (s.results, s.offset)))) ∧
    (∀ (rm : RuleMap) (mm : MethodMap) (text : List Nat) (fuel : Nat)
        (st : State) (e : Expr) (es : List Expr) (ign tok : Bool),
      parseExpr rm mm text fuel st e ign tok = .ok [] →
        parseAlt rm mm text (fuel + 1) st (e :: es) ign tok =
          parseAlt rm mm text (fuel + 1) st es ign tok) := by
  constructor
  · intro rm mm text fuel start offset sols h
    constructor
    · intro hnil
      subst hnil
      simp [parserParse, h]
    · intro hne
      simp [parserParse, h, List.length_pos, hne]
  · intro rm mm text fuel st e es ign tok h
    unfold parseAlt parseExpr at *
    simp only [run, exceptConcatMap, h, Bind.bind, Except.bind]
    cases exceptConcatMap (fun e => run rm mm text fuel (.pExpr st e ign tok)) es <;>
      simp [pure, Except.pure]

/-- C4, witness: the no-match case at a concrete grammar and the
failed-alternative case at a concrete `Alt`. -/
theorem c4_parse_error_behaviour_witness :
    (run [(("s"), Expr.string [65] [])] (fun _ => none) [66] 2
        (.pSymbol ⟨0, []⟩ ("s") false false) = .ok [] →
      ([] : List State) = [] →
        parserParse [(("s"), Expr.string [65] [])] (fun _ => none) [66] 2 ("s") 0 =
          .error .noMatch) ∧
    (parseExpr [] (fun _ => none) [66] 1 ⟨0, []⟩ (Expr.string [65] []) false false =
        .ok [] →
      parseAlt [] (fun _ => none) [66] 2 ⟨0, []⟩
          [Expr.string [65] [], Expr.string [66] []] false false =
        parseAlt [] (fun _ => none) [66] 2 ⟨0, []⟩ [Expr.string [66] []] false false) :=
  ⟨fun h hnil =>
    (c4_parse_error_behaviour.1 [(("s"), Expr.string [65] [])] (fun _ => none)
      [66] 2 ("s") 0 [] h).1 hnil,
  fun h =>
    c4_parse_error_behaviour.2 [] (fun _ => none) [66] 1 ⟨0, []⟩
      (Expr.string [65] []) [Expr.string [66] []] false false h⟩

/-! ### Claim C5: duplicate-rule precedence in the rule-map builder -/

theorem symbolsList_append (l1 l2 : List Expr) :
    symbolsList (l1 ++ l2) = symbolsList l1 ++ symbolsList l2 := by
  induction l1 with
  | nil => simp [symbolsList]
  | cons e es ih => simp [symbolsList, ih]

theorem symbolsList_flatMap_alt (es : List Expr) :
    symbolsList (es.flatMap fun e =>
      match e with
      | .alt inner _ => inner
      | e => [e]) = symbolsList es := by
  induction es with
  | nil => simp [symbolsList]
  | cons e es ih =>
    simp only [List.flatMap] at ih ⊢
    cases e <;> simp [symbolsList_append, symbolsList, symbolsOf, ih]

theorem symbolsList_flatMap_cat (es : List Expr) :
    symbolsList (es.flatMap fun e =>
      match e with
      | .cat inner _ => inner
      | e => [e]) = symbolsList es := by
  induction es with
  | nil => simp [symbolsList]
  | cons e es ih =>
    simp only [List.flatMap] at ih ⊢
    cases e <;> simp [symbolsList_append, symbolsList, symbolsOf, ih]

theorem symbolsOf_altCreate (es : List Expr) :
    symbolsOf (Alt.create es) = symbolsList es := by
  have step : ∀ (l : List Expr),
      symbolsOf (match l with
        | [e] => e
        | es2 => .alt es2 []) = symbolsList l := by
    intro l
    match l with
    | [] => simp [symbolsOf, symbolsList]
    | [e] => simp [symbolsList]
    | a :: b :: rest => simp [symbolsOf]
  unfold Alt.create
  rw [step, symbolsList_flatMap_alt]

theorem symbolsOf_catCreate (es : List Expr) :
    symbolsOf (Cat.create es) = symbolsList es := by
  have step : ∀ (l : List Expr),
      symbolsOf (match l with
        | [e] => e
        | es2 => .cat es2 []) = symbolsList l := by
    intro l
    match l with
    | [] => simp [symbolsOf, symbolsList]
    | [e] => simp [symbolsList]
    | a :: b :: rest => simp [symbolsOf]
  unfold Cat.create
  rw [step, symbolsList_flatMap_cat]

/-- C5, counterexample: with policy `overloads` and a second occurrence
carrying only `is_additional_cat`, the claim's precedence (`alt` flag, then
`cat` flag, then `overrides`, then `overloads`) demands `Cat(prev, new)`,
but the source checks `is_additional_alt or on_duplicate_rule ==
"overloads"` before ever looking at `is_additional_cat` (runtime.py lines
139-143) and produces `Alt(prev, new)`. -/
theorem c5_build_step_counterexample :
    buildStep .overloads ([(("r"), Expr.string [97] [])], [])
        ⟨("r"), Expr.string [98] [], true, false⟩ =
      ([(("r"), Expr.alt [Expr.string [97] [], Expr.string [98] []] [])], []) ∧
    Expr.alt [Expr.string [97] [], Expr.string [98] []] [] ≠
      Expr.cat [Expr.string [97] [], Expr.string [98] []] [] :=
  ⟨rfl, fun h => Expr.noConfusion h⟩

/-- C5, amended: when the builder meets a rule whose name is already mapped,
the outcome follows the source's order: if the policy is `overrides` the new
expression replaces the previous one; else if the second occurrence has
`is_additional_alt` or the policy is `overloads` the entry becomes
`Alt(previous, new)`; else if it has `is_additional_cat` the entry becomes
`Cat(previous, new)`; otherwise the name is recorded as a duplicate and the
policy decides reporting (`error` raises, `warn` warns and keeps the first
expression, `ignore` keeps it silently).  Stated on a two-rule grammar with
the same name twice (the symbol-freeness hypotheses keep the separate
undefined-symbol check out of the way). -/
theorem c5_duplicate_rule_precedence :
    ∀ (n : String) (e1 e2 : Expr) (cat_flag alt_flag : Bool) (policy : DupPolicy),
      symbolsOf e1 = [] → symbolsOf e2 = [] →
      build_rule_map [⟨n, e1, false, false⟩, ⟨n, e2, cat_flag, alt_flag⟩] policy =
        if policy = .overrides then .ok ([(n, e2)], [])
        else if alt_flag || policy = .overloads then
          .ok ([(n, Alt.create [e1, e2])], [])
        else if cat_flag then
          .ok ([(n, Cat.create [e1, e2])], [])
        else
          match policy with
          | .error => .error ("Duplicate rule(s)")
          | .warn => .ok ([(n, e1)], [("Duplicate rule(s)")])
          | _ => .ok ([(n, e1)], []) := by
  intro n e1 e2 cat_flag alt_flag policy h1 h2
  have haltc : symbolsOf (Alt.create [e1, e2]) = [] := by
    rw [symbolsOf_altCreate]
    simp [symbolsList, h1, h2]
  have hcatc : symbolsOf (Cat.create [e1, e2]) = [] := by
    rw [symbolsOf_catCreate]
    simp [symbolsList, h1, h2]
  cases policy <;> cases alt_flag <;> cases cat_flag <;>
    simp [build_rule_map, buildStep, alistLookup, alistUpsert, handle_problem,
      h1, h2, haltc, hcatc, Bind.bind, Except.bind, pure, Except.pure]

/-- C5, witness: the `overloads` policy with a `cat`-flagged duplicate at a
concrete two-rule grammar. -/
theorem c5_duplicate_rule_precedence_witness :
    symbolsOf (Expr.string [97] []) = [] ∧
    symbolsOf (Expr.string [98] []) = [] ∧
    build_rule_map [⟨("r"), Expr.string [97] [], false, false⟩,
        ⟨("r"), Expr.string [98] [], true, false⟩] .overloads =
      .ok ([(("r"), Alt.create [Expr.string [97] [], Expr.string [98] []])], []) := by
  refine ⟨by simp [symbolsOf], by simp [symbolsOf], ?_⟩
  have := c5_duplicate_rule_precedence ("r") (Expr.string [97] [])
    (Expr.string [98] []) true false .overloads (by simp [symbolsOf])
    (by simp [symbolsOf])
  simpa using this

/-! ### Claim C6: charset coalescing and tags -/

/-- C6, counterexample: two adjacent `Charset` children of an `Alt` whose
`token` tag states differ are merged anyway — the structural match
`case Charset(g1), Charset(g2)` of optimizer.py lines 156-158 never
consults metadata (and the merged node carries none). -/
theorem c6_coalesce_counterexample :
    coalesceF (.alt [.charset [.char 97] [("token")], .charset [.char 98] []] []) =
      .charset [.char 97, .char 98] [] ∧
    Expr.hasTag ("token") (.charset [.char 97] [("token")]) = true ∧
    Expr.hasTag ("token") (.charset [.char 98] []) = false := by
  refine ⟨?_, by simp [Expr.hasTag], by simp [Expr.hasTag]⟩
  simp [coalesceF, coalesceAccum, Alt.create, Charset.create, add_groups]

/-- C6, amended: in the charset-coalescing rewrite, two adjacent `Charset`
children of the same `Alt` are merged into a single `Charset`
unconditionally — the token and ignore tag states of the two children are
never compared, and the merged `Charset` carries fresh (empty) metadata
regardless of either child's tags. -/
theorem c6_coalesce_merges_unconditionally :
    ∀ (g1 g2 : List CsGroup) (m1 m2 m : List String),
      coalesceF (.alt [.charset g1 m1, .charset g2 m2] m) =
        .charset (add_groups g1 g2) [] := by
  intro g1 g2 m1 m2 m
  simp [coalesceF, coalesceAccum, Alt.create, Charset.create]

/-! ### Per-solution facts about the parse functions -/

theorem parseString_mem {text : List Nat} {st : State} {v : List Nat} {ign : Bool}
    {s : State} (h : s ∈ parseString text st v ign) :
    s.offset = st.offset + v.length ∧
      s.results = (if ign then st.results else st.results ++ [Val.str v]) := by
  unfold parseString at h
  simp only [List.mem_ite_nil_right, List.mem_singleton] at h
  obtain ⟨-, rfl⟩ := h
  exact ⟨rfl, rfl⟩

theorem parseCharset_mem {text : List Nat} {st : State} {gs : List CsGroup}
    {ign : Bool} {s : State} (h : s ∈ parseCharset text st gs ign) :
    s.offset = st.offset + 1 ∧
      s.results =
        (if ign then st.results else st.results ++ [Val.str [text.getD st.offset 0]]) := by
  unfold parseCharset at h
  split at h
  · simp only [List.mem_ite_nil_right, List.mem_singleton] at h
    obtain ⟨-, rfl⟩ := h
    exact ⟨rfl, rfl⟩
  · simp at h

/-- The backbone invariant of the parse functions, by induction over fuel:
every solution of any `_parse_*` call moves the offset forward (or keeps
it), extends the caller's results purely by appending, and in an ignored
scope appends nothing at all. -/
theorem run_state_facts (rm : RuleMap) (mm : MethodMap) (text : List Nat) :
    ∀ (fuel : Nat) (c : PCall) (sols : List State),
      run rm mm text fuel c = .ok sols →
      ∀ s ∈ sols,
        (c.state.offset ≤ s.offset ∧ ∃ d, s.results = c.state.results ++ d) ∧
        (c.ign = true → s.results = c.state.results) := by
  intro fuel
  induction fuel with
  | zero =>
    intro c sols h
    simp [run] at h
  | succ fuel ih =>
    intro c sols h s hs
    cases c with
    | pExpr st e ign tok =>
      cases e with
      | alt es m =>
        exact ih (.pAlt st es ign tok) sols h s hs
      | cat es m =>
        exact ih (.pCat st es ign tok) sols h s hs
      | symbol n m =>
        exact ih (.pSymbol st n ign tok) sols h s hs
      | rep e' mn mx m =>
        exact ih (.pRepeat st e' mn mx ign tok) sols h s hs
      | diff b d m =>
        exact ih (.pDiff st b d ign tok) sols h s hs
      | string v m =>
        simp only [PCall.state, PCall.ign]
        simp only [run, Except.ok.injEq] at h
        subst h
        obtain ⟨ho, hr⟩ := parseString_mem hs
        cases ign with
        | false =>
          simp at hr
          exact ⟨⟨by omega, [Val.str v], hr⟩, by simp⟩
        | true =>
          simp at hr
          exact ⟨⟨by omega, [], by simp [hr]⟩, fun _ => hr⟩
      | charset gs m =>
        simp only [PCall.state, PCall.ign]
        simp only [run, Except.ok.injEq] at h
        subst h
        obtain ⟨ho, hr⟩ := parseCharset_mem hs
        cases ign with
        | false =>
          simp at hr
          exact ⟨⟨by omega, _, hr⟩, by simp⟩
        | true =>
          simp at hr
          exact ⟨⟨by omega, [], by simp [hr]⟩, fun _ => hr⟩
      | endOfFile m =>
        simp [run] at h
    | pSymbol st n ign tok =>
      simp only [PCall.state, PCall.ign]
      simp only [run] at h
      cases hl : alistLookup rm n with
      | none => simp [hl] at h
      | some expr =>
        simp only [hl] at h
        cases hcond : (ign || (n.front == '_')) with
        | true =>
          simp only [hcond, if_true] at h
          obtain ⟨⟨ho, hpre⟩, hign⟩ := ih (.pExpr st expr true false) sols h s hs
          have hres : s.results = st.results := hign rfl
          exact ⟨⟨ho, [], by simp [hres]⟩, fun _ => hres⟩
        | false =>
          simp only [hcond, if_false, Bool.false_eq_true] at h
          obtain ⟨sts, h1, h2⟩ := except_bind_ok.mp h
          obtain ⟨st', hst', hf⟩ := exceptMapM_ok_mem h2 s hs
          obtain ⟨r, hr, hp⟩ := except_bind_ok.mp hf
          simp only [pure, Except.pure, Except.ok.injEq] at hp
          subst hp
          obtain ⟨⟨ho, _⟩, _⟩ :=
            ih (.pExpr ⟨st.offset, []⟩ expr false (tok || n.front.isUpper)) sts h1 st' hst'
          refine ⟨⟨ho, [r], rfl⟩, ?_⟩
          intro habs
          simp [habs] at hcond
    | pAlt st es ign tok =>
      simp only [PCall.state, PCall.ign]
      simp only [run] at h
      obtain ⟨e, he, ys, hys, hsy⟩ := exceptConcatMap_ok_mem h s hs
      exact ih (.pExpr st e ign tok) ys hys s hsy
    | pCat st es ign tok =>
      simp only [PCall.state, PCall.ign]
      cases es with
      | nil =>
        simp only [run, Except.ok.injEq] at h
        subst h
        simp at hs
        subst hs
        exact ⟨⟨le_refl _, [], by simp⟩, fun _ => rfl⟩
      | cons e rest =>
        simp only [run] at h
        obtain ⟨sts, h1, h2⟩ := except_bind_ok.mp h
        obtain ⟨st', hst', ys, hys, hsy⟩ := exceptConcatMap_ok_mem h2 s hs
        obtain ⟨⟨ho1, d1, hd1⟩, hig1⟩ := ih (.pExpr st e ign tok) sts h1 st' hst'
        obtain ⟨⟨ho2, d2, hd2⟩, hig2⟩ := ih (.pCat st' rest ign tok) ys hys s hsy
        simp only [PCall.state, PCall.ign] at ho1 hd1 hig1 ho2 hd2 hig2
        refine ⟨⟨by omega, d1 ++ d2, by simp [hd2, hd1]⟩, ?_⟩
        intro hi
        rw [hig2 hi, hig1 hi]
    | pRepeat st e mn mx ign tok =>
      simp only [PCall.state, PCall.ign]
      simp only [run] at h
      split at h
      · obtain ⟨sts, h1, h2⟩ := except_bind_ok.mp h
        obtain ⟨part1, hp1, hp⟩ := except_bind_ok.mp h2
        simp only [pure, Except.pure, Except.ok.injEq] at hp
        subst hp
        rcases List.mem_append.mp hs with hmem | hmem
        · obtain ⟨st', hst', ys, hys, hsy⟩ := exceptConcatMap_ok_mem hp1 s hmem
          obtain ⟨⟨ho1, d1, hd1⟩, hig1⟩ := ih (.pExpr st e ign tok) sts h1 st' hst'
          obtain ⟨⟨ho2, d2, hd2⟩, hig2⟩ :=
            ih (.pRepeat st' e (decCounter mn) (mx.map decCounter) ign tok) ys hys s hsy
          simp only [PCall.state, PCall.ign] at ho1 hd1 hig1 ho2 hd2 hig2
          refine ⟨⟨by omega, d1 ++ d2, by simp [hd2, hd1]⟩, ?_⟩
          intro hi
          rw [hig2 hi, hig1 hi]
        · split at hmem
          · simp at hmem
            subst hmem
            exact ⟨⟨le_refl _, [], by simp⟩, fun _ => rfl⟩
          · simp at hmem
      · simp only [Bind.bind, Except.bind, pure, Except.pure, Except.ok.injEq] at h
        subst h
        simp only [List.nil_append] at hs
        split at hs
        · simp at hs
          subst hs
          exact ⟨⟨le_refl _, [], by simp⟩, fun _ => rfl⟩
        · simp at hs
    | pDiff st b d ign tok =>
      simp only [PCall.state, PCall.ign]
      simp only [run] at h
      obtain ⟨bsols, h1, h2⟩ := except_bind_ok.mp h
      cases bsols with
      | nil =>
        simp only [pure, Except.pure, Except.ok.injEq] at h2
        subst h2
        simp at hs
      | cons b0 brest =>
        obtain ⟨dsols, hd1, hd2⟩ := except_bind_ok.mp h2
        simp only [pure, Except.pure, Except.ok.injEq] at hd2
        subst hd2
        split at hs
        · obtain ⟨⟨ho, hpre⟩, hig⟩ := ih (.pExpr st b ign tok) _ h1 s hs
          exact ⟨⟨ho, hpre⟩, hig⟩
        · simp at hs

/-! ### Claim C9: offset monotonicity -/

/-- C9: every solution state yielded by the `_parse_expr` dispatcher ends at
an offset at least the starting state's offset — the parser never moves
backwards through the input. -/
theorem c9_offset_monotone (rm : RuleMap) (mm : MethodMap) (text : List Nat)
    (fuel : Nat) (st : State) (e : Expr) (ign tok : Bool) (sols : List State)
    (h : parseExpr rm mm text fuel st e ign tok = .ok sols) :
    ∀ s ∈ sols, st.offset ≤ s.offset := fun s hs =>
  ((run_state_facts rm mm text fuel (.pExpr st e ign tok) sols h s hs).1).1

/-- C9, witness: a concrete two-string concatenation advancing the offset
from 0 to 2. -/
theorem c9_offset_monotone_witness :
    parseExpr [] (fun _ => none) [97, 98] 4 ⟨0, []⟩
        (.cat [.string [97] [], .string [98] []] []) false false =
      .ok [⟨2, [.str [97], .str [98]]⟩] ∧
    ∀ s ∈ [(⟨2, [.str [97], .str [98]]⟩ : State)], (0 : Nat) ≤ s.offset :=
  ⟨rfl,
    c9_offset_monotone [] (fun _ => none) [97, 98] 4 ⟨0, []⟩
      (.cat [.string [97] [], .string [98] []] []) false false
      [⟨2, [.str [97], .str [98]]⟩] rfl⟩

/-! ### Claim C10: the caller's state is never mutated -/

/-- C10: the parse functions are state-preserving.  In the embedding every
`_parse_*` method is a pure function of the state it receives — a failed
match contributes no solution and the caller retains its `(offset, results)`
pair untouched — and this theorem captures the content observable in the
embedding of the source's discipline (`evolve(...)` plus `results + [value]`
everywhere, never `results.append`): every solution is a freshly built state
whose results sequence is the caller's sequence extended by appended values,
with the caller's results as an unmodified prefix. -/
theorem c10_results_frame (rm : RuleMap) (mm : MethodMap) (text : List Nat)
    (fuel : Nat) (st : State) (e : Expr) (ign tok : Bool) (sols : List State)
    (h : parseExpr rm mm text fuel st e ign tok = .ok sols) :
    ∀ s ∈ sols, ∃ d, s.results = st.results ++ d := fun s hs =>
  ((run_state_facts rm mm text fuel (.pExpr st e ign tok) sols h s hs).1).2

/-- C10, witness: a charset match appends one value to a caller that already
holds accumulated results. -/
theorem c10_results_frame_witness :
    parseExpr [] (fun _ => none) [98] 1 ⟨0, [Val.str [120]]⟩
        (.charset [.range 97 122] []) false false =
      .ok [⟨1, [Val.str [120], Val.str [98]]⟩] ∧
    ∀ s ∈ [(⟨1, [Val.str [120], Val.str [98]]⟩ : State)],
      ∃ d, s.results = [Val.str [120]] ++ d :=
  ⟨rfl,
    c10_results_frame [] (fun _ => none) [98] 1 ⟨0, [Val.str [120]]⟩
      (.charset [.range 97 122] []) false false
      [⟨1, [Val.str [120], Val.str [98]]⟩] rfl⟩

/-! ### Claim C2: ignored and token rules -/

/-- C2: behaviour of `_parse_symbol`.  First conjunct: in an ignore scope, or
for a rule whose name begins with an underscore, every solution leaves the
caller's results sequence exactly as it was.  Second conjunct: outside an
ignore scope, for a name beginning with an uppercase letter (or a call
already in token scope) with no bound visitor method, every solution appends
exactly one value to the caller's results — the string joined from the child
results that the rule's body accumulated on its fresh result list (the body
runs at one fuel step below the `_parse_symbol` entry). -/
theorem c2_ignored_and_token_rules :
    (∀ (rm : RuleMap) (mm : MethodMap) (text : List Nat) (fuel : Nat)
        (st : State) (n : String) (ign tok : Bool) (sols : List State),
      (ign = true ∨ n.front = '_') →
      parseSymbol rm mm text fuel st n ign tok = .ok sols →
      ∀ s ∈ sols, s.results = st.results) ∧
    (∀ (rm : RuleMap) (mm : MethodMap) (text : List Nat) (fuel : Nat)
        (st : State) (n : String) (tok : Bool) (sols bsols : List State)
        (body : Expr),
      n.front ≠ '_' → (tok = true ∨ n.front.isUpper = true) → mm n = none →
      alistLookup rm n = some body →
      parseSymbol rm mm text (fuel + 1) st n false tok = .ok sols →
      parseExpr rm mm text fuel ⟨st.offset, []⟩ body false true = .ok bsols →
      ∀ s ∈ sols, ∃ st' ∈ bsols, ∃ j, joinVals st'.results = .ok j ∧
        s.offset = st'.offset ∧ s.results = st.results ++ [Val.str j]) := by
  constructor
  · intro rm mm text fuel st n ign tok sols hcase h s hs
    rcases hcase with hign | hund
    · subst hign
      exact (run_state_facts rm mm text fuel (.pSymbol st n true tok) sols h s hs).2 rfl
    · cases fuel with
      | zero => simp [parseSymbol, run] at h
      | succ fuel =>
        unfold parseSymbol at h
        simp only [run] at h
        cases hl : alistLookup rm n with
        | none => simp [hl] at h
        | some expr =>
          have hcond : (ign || (n.front == '_')) = true := by
            simp [hund]
          simp only [hl, hcond, if_true] at h
          exact
            (run_state_facts rm mm text fuel (.pExpr st expr true false) sols h s hs).2 rfl
  · intro rm mm text fuel st n tok sols bsols body hund htok hmm hl h hbody s hs
    have htok' : (tok || n.front.isUpper) = true := by
      rcases htok with h1 | h1 <;> simp [h1]
    have hcond : (false || (n.front == '_')) = false := by
      simp [hund]
    unfold parseSymbol at h
    unfold parseExpr at hbody
    simp only [run, hl, hcond, Bool.false_eq_true, if_false, htok'] at h
    obtain ⟨sts, h1, h2⟩ := except_bind_ok.mp h
    rw [h1] at hbody
    have hsts : sts = bsols := by
      exact (Except.ok.injEq _ _).mp hbody
    subst hsts
    obtain ⟨st', hst', hf⟩ := exceptMapM_ok_mem h2 s hs
    obtain ⟨r, hr, hp⟩ := except_bind_ok.mp hf
    simp only [pure, Except.pure, Except.ok.injEq] at hp
    unfold symbolResult at hr
    simp only [if_true, hmm] at hr
    obtain ⟨j, hj, hpr⟩ := except_bind_ok.mp hr
    simp only [pure, Except.pure, Except.ok.injEq] at hpr
    refine ⟨st', hst', j, hj, ?_⟩
    rw [← hp, ← hpr]
    exact ⟨rfl, rfl⟩

/-- C2, witness: the underscore rule `_w` appends nothing; the uppercase
rule `S` with no visitor appends exactly the joined child string. -/
theorem c2_ignored_and_token_rules_witness :
    parseSymbol [(("_w"), Expr.string [32] [])] (fun _ => none) [32] 2
        ⟨0, []⟩ ("_w") false false = .ok [⟨1, []⟩] ∧
    (∀ s ∈ [(⟨1, []⟩ : State)], s.results = ([] : List Val)) ∧
    parseSymbol [(("S"), Expr.charset [.char 97] [])] (fun _ => none) [97] 2
        ⟨0, []⟩ ("S") false false = .ok [⟨1, [Val.str [97]]⟩] ∧
    (∀ s ∈ [(⟨1, [Val.str [97]]⟩ : State)],
      ∃ st' ∈ [(⟨1, [Val.str [97]]⟩ : State)], ∃ j,
        joinVals st'.results = .ok j ∧
        s.offset = st'.offset ∧ s.results = [] ++ [Val.str j]) :=
  ⟨rfl,
    c2_ignored_and_token_rules.1 [(("_w"), Expr.string [32] [])] (fun _ => none)
      [32] 2 ⟨0, []⟩ ("_w") false false [⟨1, []⟩] (Or.inr rfl) rfl,
  rfl,
    c2_ignored_and_token_rules.2 [(("S"), Expr.charset [.char 97] [])]
      (fun _ => none) [97] 1 ⟨0, []⟩ ("S") false [⟨1, [Val.str [97]]⟩]
      [⟨1, [Val.str [97]]⟩] (Expr.charset [.char 97] []) (by decide)
      (Or.inr rfl) rfl rfl rfl rfl⟩

/-! ### Claim C1: correctness of the interval subtraction -/

theorem rangesMem_cons {x : Nat} {p : Nat × Nat} {l : List (Nat × Nat)} :
    rangesMem x (p :: l) ↔ rangeMem x p ∨ rangesMem x l := by
  constructor
  · rintro ⟨q, hq, hm⟩
    rcases List.mem_cons.mp hq with rfl | hq
    · exact Or.inl hm
    · exact Or.inr ⟨q, hq, hm⟩
  · rintro (hm | ⟨q, hq, hm⟩)
    · exact ⟨p, List.mem_cons_self .., hm⟩
    · exact ⟨q, List.mem_cons_of_mem _ hq, hm⟩

theorem rangesMem_nil_iff {x : Nat} : rangesMem x [] ↔ False := by
  simp [rangesMem]

theorem rangeMem_mk {x a z : Nat} : rangeMem x (a, z) ↔ a ≤ x ∧ x < z := Iff.rfl

/-- Every point of a valid, sorted-disjoint interval list is at least the
first interval's start. -/
theorem rangesMem_lb {a1 z1 : Nat} {bs : List (Nat × Nat)} {x : Nat}
    (hval : ∀ p ∈ (a1, z1) :: bs, p.1 < p.2)
    (hpw : List.Pairwise (fun p q : Nat × Nat => p.2 ≤ q.1) ((a1, z1) :: bs))
    (hmem : rangesMem x ((a1, z1) :: bs)) : a1 ≤ x := by
  rcases rangesMem_cons.mp hmem with h | ⟨p, hp, hm⟩
  · exact h.1
  · have h1 := (List.pairwise_cons.mp hpw).1 p hp
    have h2 := hval (a1, z1) (List.mem_cons_self ..)
    have h3 := hm.1
    simp at h2
    omega

/-- A point left of the first start of a start-sorted interval list lies in
none of its intervals. -/
theorem rangesMem_diff_lb {a2 z2 : Nat} {ds : List (Nat × Nat)} {x : Nat}
    (hpw : List.Pairwise (fun p q : Nat × Nat => p.1 ≤ q.1) ((a2, z2) :: ds))
    (hx : x < a2) : ¬ rangesMem x ((a2, z2) :: ds) := by
  rintro hmem
  rcases rangesMem_cons.mp hmem with h | ⟨p, hp, hm⟩
  · have := h.1
    omega
  · have h1 := (List.pairwise_cons.mp hpw).1 p hp
    have h2 := hm.1
    omega

/-- The subtraction loop emits only valid (non-empty) intervals when fed
valid base intervals. -/
theorem subtractLoop_valid (bs ds : List (Nat × Nat)) :
    (∀ p ∈ bs, p.1 < p.2) → ∀ p ∈ subtractLoop bs ds, p.1 < p.2 := by
  induction bs, ds using subtractLoop.induct with
  | case1 ds =>
    intro _ p hp
    simp [subtractLoop] at hp
  | case2 bs hne =>
    intro hv p hp
    rw [subtractLoop] at hp
    · exact hv p hp
    · exact hne
  | case3 a1 z1 bs a2 z2 ds h1 ih =>
    intro hv p hp
    rw [subtractLoop] at hp
    simp only [dif_pos h1] at hp
    rcases List.mem_cons.mp hp with rfl | hp
    · exact hv _ (List.mem_cons_self ..)
    · exact ih (fun q hq => hv q (List.mem_cons_of_mem _ hq)) p hp
  | case4 a1 z1 bs a2 z2 ds h1 h2 ih =>
    intro hv p hp
    rw [subtractLoop] at hp
    simp only [dif_neg h1, dif_pos h2] at hp
    exact ih hv p hp
  | case5 a1 z1 bs a2 z2 ds h1 h2 h3 ih =>
    intro hv p hp
    rw [subtractLoop] at hp
    simp only [dif_neg h1, dif_neg h2, dif_pos h3] at hp
    rcases List.mem_cons.mp hp with rfl | hp
    · simp
      omega
    · exact ih (fun q hq => hv q (List.mem_cons_of_mem _ hq)) p hp
  | case6 a1 z1 bs a2 z2 ds h1 h2 h3 h4 ih =>
    intro hv p hp
    rw [subtractLoop] at hp
    simp only [dif_neg h1, dif_neg h2, dif_neg h3, dif_pos h4] at hp
    refine ih ?_ p hp
    intro q hq
    rcases List.mem_cons.mp hq with rfl | hq
    · simp
      omega
    · exact hv q (List.mem_cons_of_mem _ hq)
  | case7 a1 z1 bs a2 z2 ds h1 h2 h3 h4 h5 ih =>
    intro hv p hp
    rw [subtractLoop] at hp
    simp only [dif_neg h1, dif_neg h2, dif_neg h3, dif_neg h4, dif_pos h5] at hp
    rcases List.mem_cons.mp hp with rfl | hp
    · simp
      omega
    · refine ih ?_ p hp
      intro q hq
      rcases List.mem_cons.mp hq with rfl | hq
      · simp
        omega
      · exact hv q (List.mem_cons_of_mem _ hq)
  | case8 a1 z1 bs a2 z2 ds h1 h2 h3 h4 h5 ih =>
    intro hv p hp
    rw [subtractLoop] at hp
    simp only [dif_neg h1, dif_neg h2, dif_neg h3, dif_neg h4, dif_neg h5] at hp
    exact ih (fun q hq => hv q (List.mem_cons_of_mem _ hq)) p hp

theorem rangesMem_cons' {x a z : Nat} {l : List (Nat × Nat)} :
    rangesMem x ((a, z) :: l) ↔ (a ≤ x ∧ x < z) ∨ rangesMem x l := by
  rw [rangesMem_cons, rangeMem_mk]

/-- Correctness of the subtraction loop: over a valid, sorted, pairwise
disjoint base worklist and a start-sorted diff worklist, the loop's output
covers exactly the base points not covered by the diff. -/
theorem subtractLoop_mem (bs ds : List (Nat × Nat)) :
    (∀ p ∈ bs, p.1 < p.2) →
    List.Pairwise (fun p q : Nat × Nat => p.2 ≤ q.1) bs →
    List.Pairwise (fun p q : Nat × Nat => p.1 ≤ q.1) ds →
    ∀ x, rangesMem x (subtractLoop bs ds) ↔ (rangesMem x bs ∧ ¬ rangesMem x ds) := by
  induction bs, ds using subtractLoop.induct with
  | case1 ds =>
    intro _ _ _ x
    simp [subtractLoop, rangesMem_nil_iff]
  | case2 bs hne =>
    intro hv hpb hpd x
    rw [subtractLoop]
    · simp [rangesMem_nil_iff]
    · exact hne
  | case3 a1 z1 bs a2 z2 ds h1 ih =>
    intro hv hpb hpd x
    have hvt : ∀ p ∈ bs, p.1 < p.2 := fun q hq => hv q (List.mem_cons_of_mem _ hq)
    have hpbt := (List.pairwise_cons.mp hpb).2
    have ihx := ih hvt hpbt hpd x
    rw [subtractLoop]
    simp only [dif_pos h1]
    constructor
    · intro hmem
      rcases rangesMem_cons'.mp hmem with ⟨hx1, hx2⟩ | hrec
      · exact ⟨rangesMem_cons'.mpr (Or.inl ⟨hx1, hx2⟩),
          rangesMem_diff_lb hpd (by omega)⟩
      · obtain ⟨hb, hnd⟩ := ihx.mp hrec
        exact ⟨rangesMem_cons'.mpr (Or.inr hb), hnd⟩
    · rintro ⟨hb, hnd⟩
      rcases rangesMem_cons'.mp hb with ⟨hx1, hx2⟩ | hb'
      · exact rangesMem_cons'.mpr (Or.inl ⟨hx1, hx2⟩)
      · exact rangesMem_cons'.mpr (Or.inr (ihx.mpr ⟨hb', hnd⟩))
  | case4 a1 z1 bs a2 z2 ds h1 h2 ih =>
    intro hv hpb hpd x
    have hpdt := (List.pairwise_cons.mp hpd).2
    have ihx := ih hv hpb hpdt x
    rw [subtractLoop]
    simp only [dif_neg h1, dif_pos h2]
    constructor
    · intro hmem
      obtain ⟨hb, hnd⟩ := ihx.mp hmem
      refine ⟨hb, ?_⟩
      intro hmd
      rcases rangesMem_cons'.mp hmd with ⟨hx1, hx2⟩ | hm
      · have := rangesMem_lb hv hpb hb
        omega
      · exact hnd hm
    · rintro ⟨hb, hnd⟩
      exact ihx.mpr ⟨hb, fun hm => hnd (rangesMem_cons'.mpr (Or.inr hm))⟩
  | case5 a1 z1 bs a2 z2 ds h1 h2 h3 ih =>
    intro hv hpb hpd x
    have h3a := h3.1
    have h3b := h3.2
    have hvt : ∀ p ∈ bs, p.1 < p.2 := fun q hq => hv q (List.mem_cons_of_mem _ hq)
    have hpbt := (List.pairwise_cons.mp hpb).2
    have ihx := ih hvt hpbt hpd x
    rw [subtractLoop]
    simp only [dif_neg h1, dif_neg h2, dif_pos h3]
    constructor
    · intro hmem
      rcases rangesMem_cons'.mp hmem with ⟨hx1, hx2⟩ | hrec
      · exact ⟨rangesMem_cons'.mpr (Or.inl ⟨hx1, by omega⟩),
          rangesMem_diff_lb hpd (by omega)⟩
      · obtain ⟨hb, hnd⟩ := ihx.mp hrec
        exact ⟨rangesMem_cons'.mpr (Or.inr hb), hnd⟩
    · rintro ⟨hb, hnd⟩
      rcases rangesMem_cons'.mp hb with ⟨hx1, hx2⟩ | hb'
      · by_cases hxa : x < a2
        · exact rangesMem_cons'.mpr (Or.inl ⟨hx1, hxa⟩)
        · exact absurd (rangesMem_cons'.mpr (Or.inl ⟨by omega, by omega⟩)) hnd
      · exact rangesMem_cons'.mpr (Or.inr (ihx.mpr ⟨hb', hnd⟩))
  | case6 a1 z1 bs a2 z2 ds h1 h2 h3 h4 ih =>
    intro hv hpb hpd x
    have h4a := h4.1
    have h4b := h4.2
    have hv' : ∀ p ∈ (z2, z1) :: bs, p.1 < p.2 := by
      intro q hq
      rcases List.mem_cons.mp hq with rfl | hq
      · simp
        omega
      · exact hv q (List.mem_cons_of_mem _ hq)
    have hpb' : List.Pairwise (fun p q : Nat × Nat => p.2 ≤ q.1) ((z2, z1) :: bs) := by
      obtain ⟨hrel, htail⟩ := List.pairwise_cons.mp hpb
      exact List.pairwise_cons.mpr ⟨fun q hq => hrel q hq, htail⟩
    have hpdt := (List.pairwise_cons.mp hpd).2
    have ihx := ih hv' hpb' hpdt x
    rw [subtractLoop]
    simp only [dif_neg h1, dif_neg h2, dif_neg h3, dif_pos h4]
    constructor
    · intro hmem
      obtain ⟨hb', hnd⟩ := ihx.mp hmem
      rcases rangesMem_cons'.mp hb' with ⟨hx1, hx2⟩ | hb''
      · refine ⟨rangesMem_cons'.mpr (Or.inl ⟨by omega, hx2⟩), ?_⟩
        intro hmd
        rcases rangesMem_cons'.mp hmd with ⟨hc1, hc2⟩ | hm
        · omega
        · exact hnd hm
      · refine ⟨rangesMem_cons'.mpr (Or.inr hb''), ?_⟩
        intro hmd
        rcases rangesMem_cons'.mp hmd with ⟨hc1, hc2⟩ | hm
        · have hx : z1 ≤ x := by
            obtain ⟨q, hq, hmq⟩ := hb''
            have h6 := (List.pairwise_cons.mp hpb).1 q hq
            have h7 := hmq.1
            omega
          omega
        · exact hnd hm
    · rintro ⟨hb, hnd⟩
      rcases rangesMem_cons'.mp hb with ⟨hx1, hx2⟩ | hb'
      · have hxz2 : z2 ≤ x := by
          by_contra hc
          push_neg at hc
          exact hnd (rangesMem_cons'.mpr (Or.inl ⟨by omega, hc⟩))
        exact ihx.mpr ⟨rangesMem_cons'.mpr (Or.inl ⟨hxz2, hx2⟩),
          fun hm => hnd (rangesMem_cons'.mpr (Or.inr hm))⟩
      · exact ihx.mpr ⟨rangesMem_cons'.mpr (Or.inr hb'),
          fun hm => hnd (rangesMem_cons'.mpr (Or.inr hm))⟩
  | case7 a1 z1 bs a2 z2 ds h1 h2 h3 h4 h5 ih =>
    intro hv hpb hpd x
    have h5a := h5.1
    have h5b := h5.2
    have hv' : ∀ p ∈ (z2, z1) :: bs, p.1 < p.2 := by
      intro q hq
      rcases List.mem_cons.mp hq with rfl | hq
      · simp
        omega
      · exact hv q (List.mem_cons_of_mem _ hq)
    have hpb' : List.Pairwise (fun p q : Nat × Nat => p.2 ≤ q.1) ((z2, z1) :: bs) := by
      obtain ⟨hrel, htail⟩ := List.pairwise_cons.mp hpb
      exact List.pairwise_cons.mpr ⟨fun q hq => hrel q hq, htail⟩
    have ihx := ih hv' hpb' hpd x
    rw [subtractLoop]
    simp only [dif_neg h1, dif_neg h2, dif_neg h3, dif_neg h4, dif_pos h5]
    constructor
    · intro hmem
      rcases rangesMem_cons'.mp hmem with ⟨hx1, hx2⟩ | hrec
      · exact ⟨rangesMem_cons'.mpr (Or.inl ⟨hx1, by omega⟩),
          rangesMem_diff_lb hpd (by omega)⟩
      · obtain ⟨hb', hnd⟩ := ihx.mp hrec
        rcases rangesMem_cons'.mp hb' with ⟨hy1, hy2⟩ | hb''
        · exact ⟨rangesMem_cons'.mpr (Or.inl ⟨by omega, hy2⟩), hnd⟩
        · exact ⟨rangesMem_cons'.mpr (Or.inr hb''), hnd⟩
    · rintro ⟨hb, hnd⟩
      rcases rangesMem_cons'.mp hb with ⟨hx1, hx2⟩ | hb'
      · by_cases hxa : x < a2
        · exact rangesMem_cons'.mpr (Or.inl ⟨hx1, hxa⟩)
        · have hxz2 : z2 ≤ x := by
            by_contra hc
            push_neg at hc
            exact hnd (rangesMem_cons'.mpr (Or.inl ⟨by omega, hc⟩))
          exact rangesMem_cons'.mpr
            (Or.inr (ihx.mpr ⟨rangesMem_cons'.mpr (Or.inl ⟨hxz2, hx2⟩), hnd⟩))
      · exact rangesMem_cons'.mpr
          (Or.inr (ihx.mpr ⟨rangesMem_cons'.mpr (Or.inr hb'), hnd⟩))
  | case8 a1 z1 bs a2 z2 ds h1 h2 h3 h4 h5 ih =>
    intro hv hpb hpd x
    have hvt : ∀ p ∈ bs, p.1 < p.2 := fun q hq => hv q (List.mem_cons_of_mem _ hq)
    have hpbt := (List.pairwise_cons.mp hpb).2
    have hfacts : a2 ≤ a1 ∧ z1 ≤ z2 := by
      rcases Nat.lt_or_ge a1 a2 with hlt | hge
      · rcases Nat.lt_or_ge z2 z1 with hlt2 | hge2
        · exact absurd ⟨hlt, hlt2⟩ h5
        · exact absurd ⟨hlt, by omega⟩ h3
      · rcases Nat.lt_or_ge z2 z1 with hlt2 | hge2
        · exact absurd ⟨hge, hlt2⟩ h4
        · exact ⟨hge, by omega⟩
    rw [subtractLoop]
    simp only [dif_neg h1, dif_neg h2, dif_neg h3, dif_neg h4, dif_neg h5]
    rw [ih hvt hpbt hpd x]
    constructor
    · rintro ⟨hb, hnd⟩
      exact ⟨rangesMem_cons'.mpr (Or.inr hb), hnd⟩
    · rintro ⟨hb, hnd⟩
      rcases rangesMem_cons'.mp hb with ⟨hx1, hx2⟩ | hb'
      · exact absurd (rangesMem_cons'.mpr (Or.inl ⟨by omega, by omega⟩)) hnd
      · exact ⟨hb', hnd⟩

theorem rangesMem_of_perm {l1 l2 : List (Nat × Nat)} (hp : l1.Perm l2) (x : Nat) :
    rangesMem x l1 ↔ rangesMem x l2 := by
  constructor <;> rintro ⟨p, hmem, hm⟩
  · exact ⟨p, hp.mem_iff.mp hmem, hm⟩
  · exact ⟨p, hp.mem_iff.mpr hmem, hm⟩

theorem rangesMem_sortRanges (l : List (Nat × Nat)) (x : Nat) :
    rangesMem x (sortRanges l) ↔ rangesMem x l :=
  rangesMem_of_perm (List.perm_insertionSort rangeLe l) x

/-- A single group covers the same code points as its `to_range` interval. -/
theorem groupMem_iff_rangeMem (g : CsGroup) (x : Nat) :
    CsGroup.mem x g ↔ rangeMem x (to_range g) := by
  cases g <;> simp [CsGroup.mem, to_range, rangeMem] <;> omega

theorem groupsMem_iff_rangesMem (gs : List CsGroup) (x : Nat) :
    groupsMem x gs ↔ rangesMem x (gs.map to_range) := by
  constructor
  · rintro ⟨g, hg, hm⟩
    exact ⟨to_range g, List.mem_map_of_mem _ hg, (groupMem_iff_rangeMem g x).mp hm⟩
  · rintro ⟨p, hp, hm⟩
    obtain ⟨g, hg, rfl⟩ := List.mem_map.mp hp
    exact ⟨g, hg, (groupMem_iff_rangeMem g x).mpr hm⟩

theorem rangesToGroups_mem (rs : List (Nat × Nat)) (hval : ∀ p ∈ rs, p.1 < p.2) (x : Nat) :
    groupsMem x (rangesToGroups rs) ↔ rangesMem x rs := by
  unfold rangesToGroups
  constructor
  · rintro ⟨g, hg, hm⟩
    obtain ⟨p, hp, rfl⟩ := List.mem_map.mp hg
    have hv := hval p hp
    refine ⟨p, hp, ?_⟩
    by_cases hw : p.1 + 1 = p.2 <;>
      · simp only [hw, if_true, if_false, reduceIte] at hm
        simp [CsGroup.mem] at hm
        simp [rangeMem]
        omega
  · rintro ⟨p, hp, hm⟩
    have hv := hval p hp
    refine ⟨if p.1 + 1 = p.2 then .char p.1 else .range p.1 (p.2 - 1),
      List.mem_map_of_mem _ hp, ?_⟩
    obtain ⟨h1, h2⟩ := hm
    by_cases hw : p.1 + 1 = p.2 <;>
      · simp [hw, CsGroup.mem]
        omega

theorem rangesToGroups_valid (rs : List (Nat × Nat)) (hval : ∀ p ∈ rs, p.1 < p.2) :
    ∀ g ∈ rangesToGroups rs, g.valid := by
  intro g hg
  obtain ⟨p, hp, rfl⟩ := List.mem_map.mp hg
  have hv := hval p hp
  by_cases hw : p.1 + 1 = p.2
  · simp [hw, CsGroup.valid]
  · simp [hw, CsGroup.valid]
    omega

/-- C1, amended: for charsets `A` and `B` of valid groups whose *base*
groups are pairwise non-overlapping (as the groups that `coalesce_charsets`
produces are), `subtract_groups(A, B)` denotes exactly the set difference of
the denoted code-point sets, every residual interval being emitted as a
valid group (`Char` for width 1, a valid `CharRange` otherwise).  The
pairwise-disjointness hypothesis on `A` is needed: the loop consumes the
sorted base ranges left to right and never revisits subtracted territory, so
an overlapping base pair can resurrect subtracted code points (see the
counterexample). -/
theorem c1_subtract_groups_correct (base diff : List CsGroup)
    (hbv : ∀ g ∈ base, g.valid) (_hdv : ∀ g ∈ diff, g.valid)
    (hdisj : List.Pairwise groupsDisjoint base) :
    (∀ x, groupsMem x (subtract_groups base diff) ↔
      (groupsMem x base ∧ ¬ groupsMem x diff)) ∧
    ∀ g ∈ subtract_groups base diff, g.valid := by
  have hvB : ∀ p ∈ sortRanges (base.map to_range), p.1 < p.2 := by
    intro p hp
    have hp' := (List.perm_insertionSort rangeLe (base.map to_range)).mem_iff.mp hp
    obtain ⟨g, hg, rfl⟩ := List.mem_map.mp hp'
    have hgv := hbv g hg
    cases g with
    | char c => simp [to_range]
    | range lo hi =>
      simp [CsGroup.valid] at hgv
      simp [to_range]
      omega
  have hpd : List.Pairwise (fun p q : Nat × Nat => p.1 ≤ q.1)
      (sortRanges (diff.map to_range)) := by
    have hs := List.sorted_insertionSort rangeLe (diff.map to_range)
    refine List.Pairwise.imp ?_ hs
    intro p q h
    unfold rangeLe at h
    omega
  have hdisj_map : List.Pairwise
      (fun p q : Nat × Nat => p.2 ≤ q.1 ∨ q.2 ≤ p.1) (base.map to_range) := by
    rw [List.pairwise_map]
    exact hdisj
  have hdisj_sorted : List.Pairwise
      (fun p q : Nat × Nat => p.2 ≤ q.1 ∨ q.2 ≤ p.1)
      (sortRanges (base.map to_range)) := by
    refine ((List.perm_insertionSort rangeLe (base.map to_range)).pairwise_iff ?_).mpr
      hdisj_map
    intro p q h
    omega
  have hpb : List.Pairwise (fun p q : Nat × Nat => p.2 ≤ q.1)
      (sortRanges (base.map to_range)) := by
    have hsorted := List.sorted_insertionSort rangeLe (base.map to_range)
    have hand := List.Pairwise.and hsorted hdisj_sorted
    refine List.Pairwise.imp_of_mem ?_ hand
    intro p q hp hq hr
    obtain ⟨hle, hdis⟩ := hr
    have hvp := hvB p hp
    have hvq := hvB q hq
    unfold rangeLe at hle
    omega
  have hloopv := subtractLoop_valid (sortRanges (base.map to_range))
    (sortRanges (diff.map to_range)) hvB
  constructor
  · intro x
    show groupsMem x (rangesToGroups (subtractLoop (sortRanges (base.map to_range))
      (sortRanges (diff.map to_range)))) ↔ _
    rw [rangesToGroups_mem _ hloopv x,
      subtractLoop_mem _ _ hvB hpb hpd x,
      rangesMem_sortRanges, rangesMem_sortRanges,
      ← groupsMem_iff_rangesMem, ← groupsMem_iff_rangesMem]
  · show ∀ g ∈ rangesToGroups (subtractLoop (sortRanges (base.map to_range))
      (sortRanges (diff.map to_range))), g.valid
    exact rangesToGroups_valid _ hloopv

/-- C1, counterexample: the charsets `A = [a-j, d-e]` (valid, but with
overlapping groups) and `B = [d-e]` refute the claim as stated for all
charsets: code point 100 (the character d) is denoted by `B`, so it must not
be denoted by `A − B`, yet `subtract_groups(A, B)` still denotes it — the
loop splits `(97, 107)` against `(100, 102)`, then the second, overlapping
base range `(100, 102)` arrives after the diff range has already been
consumed and survives untouched. -/
theorem c1_subtract_groups_counterexample :
    groupsMem 100 (subtract_groups [CsGroup.range 97 106, CsGroup.range 100 101]
      [CsGroup.range 100 101]) ∧
    groupsMem 100 [CsGroup.range 100 101] ∧
    (∀ g ∈ [CsGroup.range 97 106, CsGroup.range 100 101], g.valid) ∧
    (∀ g ∈ [CsGroup.range 100 101], g.valid) := by
  refine ⟨?_, by decide, by decide, by decide⟩
  have heq : subtract_groups [CsGroup.range 97 106, CsGroup.range 100 101]
      [CsGroup.range 100 101] =
      [CsGroup.range 97 99, CsGroup.range 102 106, CsGroup.range 100 101] := by
    simp [subtract_groups, sortRanges, rangesToGroups, to_range, List.insertionSort,
      List.orderedInsert, rangeLe, subtractLoop]
  rw [heq]
  decide

/-- C1, witness: `[a-c] − [b]` with a disjoint base evaluates per the
theorem (to `[a, c]`, two width-1 `Char` groups). -/
theorem c1_subtract_groups_correct_witness :
    (∀ g ∈ [CsGroup.range 97 99], g.valid) ∧
    (∀ g ∈ [CsGroup.char 98], g.valid) ∧
    List.Pairwise groupsDisjoint [CsGroup.range 97 99] ∧
    ((∀ x, groupsMem x (subtract_groups [CsGroup.range 97 99] [CsGroup.char 98]) ↔
      (groupsMem x [CsGroup.range 97 99] ∧ ¬ groupsMem x [CsGroup.char 98])) ∧
      ∀ g ∈ subtract_groups [CsGroup.range 97 99] [CsGroup.char 98], g.valid) :=
  ⟨by decide, by decide, by simp,
    c1_subtract_groups_correct [CsGroup.range 97 99] [CsGroup.char 98]
      (by decide) (by decide) (by simp)⟩

/-- C8, witness: an unbounded repeat with `min = 2` is accepted; a bounded
`max = 2` below `min = 3` is rejected. -/
theorem c8_repeat_ctor_characterization_witness :
    repeatCtorOk 2 none ∧ ¬ repeatCtorOk 3 (some 2) :=
  ⟨(c8_repeat_ctor_characterization.1 2 none).mpr ⟨by decide, Or.inl rfl⟩,
    c8_repeat_ctor_characterization.2 3 2 (by decide)⟩
